import Mathlib

/-!
Verification development for the claude-code-plugins repository.

Shallow embedding of the pure logic of:
  * `plugins/fork-terminal/skills/fork-terminal/tools/coordination.py`
    (worker/tournament coordination store),
  * `plugins/multi-ai-review/scripts/result_parser.py` (finding normalizer),
  * `plugins/multi-ai-review/scripts/aggregator.py` (finding aggregator),
  * `plugins/multi-ai-review/scripts/review_runner.py` (parallel runner).

File-system and process effects are made explicit: the store operations
are functions on a `CoordData` value (the JSON document), `save` is a
small-step trace over an explicit file-system state, clock readings and
fresh-id sources are passed as arguments, and subprocess execution is an
abstract `String → String` status function.
-/

namespace Coordination

/-- Embeds the `WorkerInfo` dataclass of coordination.py. -/
structure WorkerInfo where
  id : Nat
  path : String
  branch : String
  task : String
  started : String
  status : String := "active"
  pid : Option Nat := none
  terminal : String := "unknown"
deriving DecidableEq, Repr

/-- Embeds the `TournamentWorker` dataclass of coordination.py. -/
structure TournamentWorker where
  worker_id : Nat
  cli : String
  path : String
  branch : String
  done : Bool := false
  done_file : Option String := none
  completed_at : Option String := none
deriving DecidableEq, Repr

/-- Embeds the `TournamentInfo` dataclass of coordination.py. -/
structure TournamentInfo where
  id : String
  task : String
  started : String
  status : String
  clis : List String
  workers : List TournamentWorker
  combined_branch : Option String := none
  base : String := "HEAD"
deriving DecidableEq, Repr

/-- The coordination JSON document (`version`/`main_repo` fields carry no
logic and are omitted; `workers` and `tournaments` are the mutated lists). -/
structure CoordData where
  workers : List WorkerInfo := []
  tournaments : List TournamentInfo := []
deriving DecidableEq, Repr

/-- The empty, versioned default document returned by `load_coordination`
when no store file exists. -/
def emptyCoord : CoordData := {}

/-- Embeds `get_next_worker_id`: 1 on an empty worker list, otherwise
`max(w["id"] for w in workers) + 1` (a fold of `max` over the ids; for a
nonempty list of naturals this equals Python's `max`). -/
def get_next_worker_id (data : CoordData) : Nat :=
  if data.workers.isEmpty then 1
  else (data.workers.foldl (fun m w => max m w.id) 0) + 1

/-- Embeds `register_worker` minus the load/save I/O: the store document is
passed and returned explicitly, and the `datetime.now().isoformat()` clock
reading is the `now` argument.  Appends a new active worker with the next
id and returns the updated document with the assigned id. -/
def register_worker (data : CoordData) (path branch task : String)
    (pid : Option Nat) (terminal : String) (now : String) :
    CoordData × Nat :=
  let worker_id := get_next_worker_id data
  let w : WorkerInfo :=
    { id := worker_id, path := path, branch := branch, task := task,
      started := now, status := "active", pid := pid, terminal := terminal }
  ({ data with workers := data.workers ++ [w] }, worker_id)

/-- One registration request: the non-id arguments of `register_worker`. -/
structure RegRequest where
  path : String
  branch : String
  task : String
  pid : Option Nat
  terminal : String
  now : String

/-- Registers a sequence of workers one after the other, as successive
`register_worker` calls against the same store. -/
def registerAll (data : CoordData) (reqs : List RegRequest) : CoordData :=
  reqs.foldl
    (fun d r => (register_worker d r.path r.branch r.task r.pid r.terminal r.now).1)
    data

/-- Embeds `get_tournament`: first tournament whose `id` matches. -/
def get_tournament (data : CoordData) (tournament_id : String) :
    Option TournamentInfo :=
  data.tournaments.find? (fun t => t.id = tournament_id)

/-- The completion record returned by `check_tournament_completion`. -/
structure CompletionStatus where
  complete : Bool
  total : Nat
  done : Nat
  pending : List (Nat × String × String)
deriving DecidableEq, Repr

/-- Embeds `check_tournament_completion`: unknown id yields the empty
record; otherwise counts done workers, lists pending ones (worker_id, cli,
path), and reports `complete` when the done count equals the total. -/
def check_tournament_completion (data : CoordData) (tournament_id : String) :
    CompletionStatus :=
  match get_tournament data tournament_id with
  | none => { complete := false, total := 0, done := 0, pending := [] }
  | some t =>
    let done_count := (t.workers.filter (fun w => w.done)).length
    let pending := (t.workers.filter (fun w => !w.done)).map
      (fun w => (w.worker_id, w.cli, w.path))
    { complete := done_count == t.workers.length,
      total := t.workers.length,
      done := done_count,
      pending := pending }

/-- The file-system area around the coordination store, as `save_coordination`
sees it: the store file's contents (`none` = absent), the number of live
temp files in the store's directory, and the advisory lock. -/
structure FsState where
  store : Option CoordData
  tempCount : Nat
  locked : Bool
deriving DecidableEq, Repr

/-- Embeds `save_coordination` as a small-step trace over `FsState`.
The Python body: open the lock file and `flock(LOCK_EX)`; `mkstemp` a temp
file in the store directory; `json.dump` the document into it; `os.rename`
it over the target (atomic); on any exception between `mkstemp` and the end
of the `try` block, `os.unlink` the temp file and re-raise; in all cases
the `finally` block releases the lock.  `writeOk` abstracts whether the
dump/rename succeeds; the returned list is every intermediate state a
concurrent reader could observe, followed by the final state and the
success flag. -/
def save_coordination (st : FsState) (data : CoordData) (writeOk : Bool) :
    List FsState × FsState × Bool :=
  let s1 : FsState := { st with locked := true }
  let s2 : FsState := { s1 with tempCount := s1.tempCount + 1 }
  if writeOk then
    let s3 : FsState :=
      { s2 with store := some data, tempCount := s2.tempCount - 1 }
    let s4 : FsState := { s3 with locked := false }
    ([s1, s2, s3, s4], s4, true)
  else
    let s3 : FsState := { s2 with tempCount := s2.tempCount - 1 }
    let s4 : FsState := { s3 with locked := false }
    ([s1, s2, s3, s4], s4, false)

/-- Field updates accepted by `update_tournament`: the Python caller passes
an arbitrary `updates` dict and every key already present in the tournament
record is overwritten; keys of the record are exactly these eight. -/
structure TournamentUpdates where
  id : Option String := none
  task : Option String := none
  started : Option String := none
  status : Option String := none
  clis : Option (List String) := none
  workers : Option (List TournamentWorker) := none
  combined_branch : Option (Option String) := none
  base : Option String := none

/-- Applies an update dict to one tournament record
(`for key, value in updates.items(): if key in t: t[key] = value`). -/
def applyUpdates (t : TournamentInfo) (u : TournamentUpdates) : TournamentInfo :=
  { id := u.id.getD t.id,
    task := u.task.getD t.task,
    started := u.started.getD t.started,
    status := u.status.getD t.status,
    clis := u.clis.getD t.clis,
    workers := u.workers.getD t.workers,
    combined_branch := u.combined_branch.getD t.combined_branch,
    base := u.base.getD t.base }

/-- The loop of `update_tournament`: update the first tournament whose id
matches, leave the rest untouched, report whether one matched. -/
def updateTournamentList (ts : List TournamentInfo) (tid : String)
    (u : TournamentUpdates) : List TournamentInfo × Bool :=
  match ts with
  | [] => ([], false)
  | t :: rest =>
    if t.id = tid then (applyUpdates t u :: rest, true)
    else
      let r := updateTournamentList rest tid u
      (t :: r.1, r.2)

/-- Embeds `update_tournament` minus the load/save I/O. -/
def update_tournament (data : CoordData) (tid : String)
    (u : TournamentUpdates) : CoordData × Bool :=
  let r := updateTournamentList data.tournaments tid u
  ({ data with tournaments := r.1 }, r.2)

/-- Position of a status along the `running → reviewing → complete` chain
claimed by the spec. -/
def statusRank (s : String) : Nat :=
  if s = "running" then 0
  else if s = "reviewing" then 1
  else if s = "complete" then 2
  else 0

/-- One worker entry of the `workers` argument of `register_tournament`. -/
structure TWorkerReq where
  worker_id : Nat
  cli : String
  path : String
  branch : String

/-- Embeds `register_tournament` minus the load/save I/O: the
`int(time.time())` reading is the `epochSeconds` argument and the
`datetime.now().isoformat()` reading is `now`.  The generated id is
`f"tournament-{int(time.time())}"`. -/
def register_tournament (data : CoordData) (task : String)
    (workers : List TWorkerReq) (clis : List String) (base : String)
    (epochSeconds : Nat) (now : String) : CoordData × String :=
  let tournament_id := "tournament-" ++ toString epochSeconds
  let tws : List TournamentWorker := workers.map (fun w =>
    { worker_id := w.worker_id, cli := w.cli, path := w.path,
      branch := w.branch, done := false, done_file := none,
      completed_at := none })
  let t : TournamentInfo :=
    { id := tournament_id, task := task, started := now,
      status := "running", clis := clis, workers := tws,
      combined_branch := none, base := base }
  ({ data with tournaments := data.tournaments ++ [t] }, tournament_id)

/-- The assignment block of `mark_tournament_worker_done`:
`w["done"] = True; w["done_file"] = done_file; w["completed_at"] = now`. -/
def stampWorker (w : TournamentWorker) (done_file now : String) :
    TournamentWorker :=
  { w with done := true, done_file := some done_file, completed_at := some now }

/-- Replaces the `workers` list of a tournament record. -/
def withWorkers (t : TournamentInfo) (ws : List TournamentWorker) :
    TournamentInfo :=
  { t with workers := ws }

/-- The worker loop of `mark_tournament_worker_done`: set the first worker
whose `worker_id` matches to done, stamping `done_file` and `completed_at`;
`none` when no worker matches. -/
def markWorkerList (ws : List TournamentWorker) (worker_id : Nat)
    (done_file now : String) : Option (List TournamentWorker) :=
  match ws with
  | [] => none
  | w :: rest =>
    if w.worker_id = worker_id then
      some (stampWorker w done_file now :: rest)
    else
      match markWorkerList rest worker_id done_file now with
      | some rest' => some (w :: rest')
      | none => none

/-- The tournament loop of `mark_tournament_worker_done`: on the first
tournament whose id matches *and* which contains the worker, mark it and
return; a matching tournament without the worker lets the loop continue
(the Python inner loop falls through without returning). -/
def markTournamentList (ts : List TournamentInfo) (tid : String)
    (worker_id : Nat) (done_file now : String) :
    List TournamentInfo × Bool :=
  match ts with
  | [] => ([], false)
  | t :: rest =>
    if t.id = tid then
      match markWorkerList t.workers worker_id done_file now with
      | some ws' => (withWorkers t ws' :: rest, true)
      | none =>
        let r := markTournamentList rest tid worker_id done_file now
        (t :: r.1, r.2)
    else
      let r := markTournamentList rest tid worker_id done_file now
      (t :: r.1, r.2)

/-- Embeds `mark_tournament_worker_done` minus the load/save I/O: the
`datetime.now().isoformat()` reading is the `now` argument. -/
def mark_tournament_worker_done (data : CoordData) (tid : String)
    (worker_id : Nat) (done_file now : String) : CoordData × Bool :=
  let r := markTournamentList data.tournaments tid worker_id done_file now
  ({ data with tournaments := r.1 }, r.2)

end Coordination

namespace Coordination

lemma foldl_max_append (l : List WorkerInfo) (a : Nat) (w : WorkerInfo) :
    (l ++ [w]).foldl (fun m x => max m x.id) a
      = max (l.foldl (fun m x => max m x.id) a) w.id := by
  induction l generalizing a with
  | nil => simp
  | cons x xs ih => simp [List.foldl_cons, ih]

lemma foldl_max_of_ids_range (l : List WorkerInfo) (k : Nat)
    (h : l.map WorkerInfo.id = List.range' 1 k) :
    l.foldl (fun m x => max m x.id) 0 = k := by
  induction k generalizing l with
  | zero =>
    simp only [List.range'] at h
    have : l = [] := by
      cases l with
      | nil => rfl
      | cons x xs => simp at h
    simp [this]
  | succ n ih =>
    have hsplit : List.range' 1 (n + 1) = List.range' 1 n ++ [1 + n] :=
      List.range'_1_concat 1 n
    rw [hsplit] at h
    -- split l into an initial part mapping to range' 1 n and a last element
    rcases List.map_eq_append_iff.mp h with ⟨l₁, l₂, hl, h₁, h₂⟩
    cases l₂ with
    | nil => simp at h₂
    | cons y ys =>
      cases ys with
      | cons z zs => simp at h₂
      | nil =>
        simp only [List.map_cons, List.map_nil] at h₂
        have hy : y.id = 1 + n := by
          have := List.cons.injEq (y.id) [] (1 + n) [] ▸ h₂
          simpa using h₂
        subst hl
        rw [foldl_max_append l₁ 0 y, ih l₁ h₁, hy]
        omega

lemma registerAll_ids (reqs : List RegRequest) (data : CoordData) (k : Nat)
    (h : data.workers.map WorkerInfo.id = List.range' 1 k) :
    (registerAll data reqs).workers.map WorkerInfo.id
      = List.range' 1 (k + reqs.length) := by
  induction reqs generalizing data k with
  | nil => simpa using h
  | cons r rs ih =>
    simp only [registerAll, List.foldl_cons] at *
    have hnext : get_next_worker_id data = k + 1 := by
      unfold get_next_worker_id
      by_cases hw : data.workers.isEmpty
      · rw [List.isEmpty_iff] at hw
        rw [hw] at h
        simp only [List.map_nil] at h
        have hk : k = 0 := by
          by_contra hk
          cases k with
          | zero => exact hk rfl
          | succ m =>
            rw [List.range'] at h
            simp at h
        simp [hw, hk]
      · rw [if_neg hw, foldl_max_of_ids_range data.workers k h]
    have hstep :
        ((register_worker data r.path r.branch r.task r.pid r.terminal r.now).1).workers.map
          WorkerInfo.id = List.range' 1 (k + 1) := by
      simp only [register_worker, List.map_append, h, hnext, List.map_cons,
        List.map_nil]
      rw [List.range'_1_concat 1 k]
      simp [Nat.add_comm]
    have := ih _ _ hstep
    rw [this]
    congr 1
    simp only [List.length_cons]
    omega

/-- C2 — Registering N ≥ 0 workers into an empty store assigns ids exactly
{1,…,N}, in order, with no duplicates, whatever the request payloads and
their order; and each single registration returns `get_next_worker_id`,
which is 1 on an empty store and `max(existing ids)+1` otherwise. -/
theorem registerWorker_ids_exactly_one_to_N (reqs : List RegRequest) :
    ((registerAll emptyCoord reqs).workers.map WorkerInfo.id
        = List.range' 1 reqs.length)
    ∧ ((registerAll emptyCoord reqs).workers.map WorkerInfo.id).Nodup
    ∧ (∀ i : Nat,
        i ∈ (registerAll emptyCoord reqs).workers.map WorkerInfo.id
          ↔ 1 ≤ i ∧ i ≤ reqs.length)
    ∧ (∀ (d : CoordData) (p b t : String) (pid : Option Nat) (term now : String),
        (register_worker d p b t pid term now).2 = get_next_worker_id d)
    ∧ (∀ d : CoordData, d.workers = [] → get_next_worker_id d = 1)
    ∧ (∀ d : CoordData, d.workers ≠ [] →
        get_next_worker_id d = d.workers.foldl (fun m w => max m w.id) 0 + 1) := by
  have hids := registerAll_ids reqs emptyCoord 0 (by rfl)
  simp only [Nat.zero_add] at hids
  refine ⟨hids, ?_, ?_, ?_, ?_, ?_⟩
  · rw [hids]; exact List.nodup_range' _ _
  · intro i
    rw [hids, List.mem_range'_1]
    omega
  · intro d p b t pid term now; rfl
  · intro d hd
    unfold get_next_worker_id
    simp [hd]
  · intro d hd
    unfold get_next_worker_id
    rw [if_neg (by simpa [List.isEmpty_iff] using hd)]

/-- Witness for `registerWorker_ids_exactly_one_to_N` at a concrete
three-request list. -/
theorem registerWorker_ids_exactly_one_to_N_witness :
    ((registerAll emptyCoord
        [⟨"p1", "b1", "t1", none, "tmux", "T0"⟩,
         ⟨"p2", "b2", "t2", some 7, "window", "T1"⟩,
         ⟨"p3", "b3", "t3", none, "tmux", "T2"⟩]).workers.map WorkerInfo.id
      = List.range' 1 3)
    ∧ (2 ∈ (registerAll emptyCoord
        [⟨"p1", "b1", "t1", none, "tmux", "T0"⟩,
         ⟨"p2", "b2", "t2", some 7, "window", "T1"⟩,
         ⟨"p3", "b3", "t3", none, "tmux", "T2"⟩]).workers.map WorkerInfo.id) := by
  have h := registerWorker_ids_exactly_one_to_N
    [⟨"p1", "b1", "t1", none, "tmux", "T0"⟩,
     ⟨"p2", "b2", "t2", some 7, "window", "T1"⟩,
     ⟨"p3", "b3", "t3", none, "tmux", "T2"⟩]
  exact ⟨h.1, (h.2.2.1 2).mpr (by decide)⟩

/-- C10 — `check_tournament_completion` reports: for an unknown id the
empty record (complete=false, 0/0, no pending); for a found tournament,
`total` is its worker count, `done` counts workers with `done = true`,
`pending` lists exactly the projections of workers with `done = false`,
and `complete = true` iff every worker is done (hence `true` for an empty
worker list). -/
theorem check_tournament_completion_spec (data : CoordData) (tid : String) :
    (get_tournament data tid = none →
      check_tournament_completion data tid
        = { complete := false, total := 0, done := 0, pending := [] })
    ∧ (∀ t, get_tournament data tid = some t →
        (check_tournament_completion data tid).total = t.workers.length
        ∧ (check_tournament_completion data tid).done
            = t.workers.countP (fun w => w.done)
        ∧ (check_tournament_completion data tid).pending
            = (t.workers.filter (fun w => w.done = false)).map
                (fun w => (w.worker_id, w.cli, w.path))
        ∧ ((check_tournament_completion data tid).complete = true
            ↔ ∀ w ∈ t.workers, w.done = true)
        ∧ ((check_tournament_completion data tid).complete = true
            ↔ (check_tournament_completion data tid).done
                = (check_tournament_completion data tid).total)
        ∧ (t.workers = [] →
            (check_tournament_completion data tid).complete = true)) := by
  constructor
  · intro h
    simp only [check_tournament_completion, h]
  · intro t ht
    have hcc : check_tournament_completion data tid
        = { complete :=
              ((t.workers.filter (fun w => w.done)).length == t.workers.length),
            total := t.workers.length,
            done := (t.workers.filter (fun w => w.done)).length,
            pending := (t.workers.filter (fun w => !w.done)).map
              (fun w => (w.worker_id, w.cli, w.path)) } := by
      simp only [check_tournament_completion, ht]
    rw [hcc]
    have hcount : (t.workers.filter (fun w => w.done)).length
        = t.workers.countP (fun w => w.done) := by
      rw [List.countP_eq_length_filter]
    refine ⟨rfl, hcount, ?_, ?_, ?_, ?_⟩
    · dsimp only
      congr 1
      apply List.filter_congr
      intro w _
      cases w.done <;> simp
    · dsimp only
      rw [beq_iff_eq]
      constructor
      · intro h w hw
        have : ∀ x ∈ t.workers, x.done = true := by
          intro x hx
          by_contra hnd
          have hlt : (t.workers.filter (fun w => w.done)).length
              < t.workers.length := by
            apply List.length_filter_lt_length_iff_exists.mpr
            exact ⟨x, hx, by simpa using hnd⟩
          omega
        exact this w hw
      · intro h
        have : t.workers.filter (fun w => w.done) = t.workers :=
          List.filter_eq_self.mpr (by intro a ha; simpa using h a ha)
        rw [this]
    · dsimp only
      rw [beq_iff_eq]
    · intro h
      simp [h]

/-- A concrete tournament with a single finished worker, used by the
completion-check witness. -/
def exTournament1 : TournamentInfo :=
  { id := "t-1", task := "task", started := "T0", status := "running",
    clis := ["claude"],
    workers := [{ worker_id := 1, cli := "claude", path := "/w1",
                  branch := "b1", done := true,
                  done_file := some "/w1/DONE.md",
                  completed_at := some "T1" }] }

/-- A concrete one-tournament store, used by the completion-check witness. -/
def exStore1 : CoordData := { tournaments := [exTournament1] }

/-- Witness for `check_tournament_completion_spec`: a store holding one
tournament with one done worker, checked at its id and at an unknown id. -/
theorem check_tournament_completion_spec_witness :
    (check_tournament_completion exStore1 "t-1").complete = true
    ∧ (check_tournament_completion ({} : CoordData) "nope")
        = { complete := false, total := 0, done := 0, pending := [] } := by
  constructor
  · have h := check_tournament_completion_spec exStore1 "t-1"
    exact ((h.2 exTournament1 (by decide)).2.2.2.1).mpr (by decide)
  · exact (check_tournament_completion_spec ({} : CoordData) "nope").1 (by decide)

/-- C3 — `save_coordination` is atomic: the advisory lock is released on
every exit path; on success the store file holds exactly the new snapshot
and no temp file is left behind; on failure the store file is unchanged
and the temp file has been deleted; and every state a concurrent reader
could observe holds either the old contents or the complete new snapshot,
never a partial write. -/
theorem save_coordination_atomic (st : FsState) (data : CoordData) (ok : Bool) :
    ((save_coordination st data ok).2.1.locked = false)
    ∧ ((save_coordination st data ok).2.2 = true →
        (save_coordination st data ok).2.1.store = some data
        ∧ (save_coordination st data ok).2.1.tempCount = st.tempCount)
    ∧ ((save_coordination st data ok).2.2 = false →
        (save_coordination st data ok).2.1.store = st.store
        ∧ (save_coordination st data ok).2.1.tempCount = st.tempCount)
    ∧ (∀ s ∈ (save_coordination st data ok).1,
        s.store = st.store ∨ s.store = some data) := by
  cases ok <;> simp [save_coordination]

/-- Witness for `save_coordination_atomic`: a successful save installs the
snapshot, a failed save over an existing store leaves it intact. -/
theorem save_coordination_atomic_witness :
    ((save_coordination ⟨none, 0, false⟩ emptyCoord true).2.1.store
        = some emptyCoord)
    ∧ ((save_coordination ⟨some emptyCoord, 0, false⟩ exStore1 false).2.1.store
        = some emptyCoord)
    ∧ ((save_coordination ⟨none, 0, false⟩ emptyCoord true).2.1.locked = false) := by
  have h1 := save_coordination_atomic ⟨none, 0, false⟩ emptyCoord true
  have h2 := save_coordination_atomic ⟨some emptyCoord, 0, false⟩ exStore1 false
  exact ⟨(h1.2.1 rfl).1, (h2.2.2.1 rfl).1, h1.1⟩

/-- A tournament already in the terminal `complete` state. -/
def exCompleteT : TournamentInfo :=
  { id := "t-c", task := "task", started := "T0", status := "complete",
    clis := ["claude"], workers := [] }

/-- A store holding only `exCompleteT`. -/
def exStoreC4 : CoordData := { tournaments := [exCompleteT] }

/-- C4 counterexample — the claim that a store operation never regresses a
tournament's status is false: `update_tournament` applies the supplied
status verbatim, so updating a `complete` tournament with
`{"status": "running"}` moves its status backwards along the
running → reviewing → complete chain. -/
theorem update_tournament_status_regression :
    ((get_tournament exStoreC4 "t-c").map TournamentInfo.status
        = some "complete")
    ∧ ((get_tournament
          (update_tournament exStoreC4 "t-c"
            { status := some "running" }).1 "t-c").map TournamentInfo.status
        = some "running")
    ∧ statusRank "running" < statusRank "complete" := by
  refine ⟨by decide, by decide, by decide⟩

lemma markTournamentList_status_map (ts : List TournamentInfo) (tid : String)
    (wid : Nat) (df now : String) :
    (markTournamentList ts tid wid df now).1.map TournamentInfo.status
      = ts.map TournamentInfo.status := by
  induction ts with
  | nil => rfl
  | cons t rest ih =>
    unfold markTournamentList
    by_cases h : t.id = tid
    · rw [if_pos h]
      cases hm : markWorkerList t.workers wid df now with
      | some ws' => simp [withWorkers]
      | none => simp [ih]
    · rw [if_neg h]
      simp [ih]

lemma updateTournamentList_split (pre : List TournamentInfo)
    (t : TournamentInfo) (post : List TournamentInfo) (tid : String)
    (u : TournamentUpdates)
    (hpre : ∀ x ∈ pre, x.id ≠ tid) (ht : t.id = tid) :
    updateTournamentList (pre ++ t :: post) tid u
      = (pre ++ applyUpdates t u :: post, true) := by
  induction pre with
  | nil => simp [updateTournamentList, ht]
  | cons x xs ih =>
    have hx : x.id ≠ tid := hpre x (by simp)
    have := ih (fun y hy => hpre y (by simp [hy]))
    simp only [List.cons_append, updateTournamentList, if_neg hx,
      List.append_eq, this]

/-- C4 amended — status writes in the store: `mark_tournament_worker_done`
never changes any tournament's status and `register_tournament` appends a
tournament with status `running`; but `update_tournament` overwrites the
first matching tournament's status with exactly the caller-supplied value
— no monotonicity check and no all-workers-done check — so a caller can
regress the status or enter `reviewing` with workers pending. -/
theorem tournament_status_write_behaviour :
    (∀ (d : CoordData) (tid : String) (wid : Nat) (df now : String),
        ((mark_tournament_worker_done d tid wid df now).1).tournaments.map
            TournamentInfo.status
          = d.tournaments.map TournamentInfo.status)
    ∧ (∀ (d : CoordData) (task : String) (ws : List TWorkerReq)
          (clis : List String) (base : String) (t : Nat) (now : String),
        ((register_tournament d task ws clis base t now).1).tournaments.map
            TournamentInfo.status
          = d.tournaments.map TournamentInfo.status ++ ["running"])
    ∧ (∀ (d : CoordData) (tid : String) (u : TournamentUpdates)
          (pre : List TournamentInfo) (t : TournamentInfo)
          (post : List TournamentInfo),
        d.tournaments = pre ++ t :: post →
        (∀ x ∈ pre, x.id ≠ tid) →
        t.id = tid →
        ((update_tournament d tid u).1).tournaments
            = pre ++ applyUpdates t u :: post
          ∧ (applyUpdates t u).status = u.status.getD t.status) := by
  refine ⟨?_, ?_, ?_⟩
  · intro d tid wid df now
    exact markTournamentList_status_map d.tournaments tid wid df now
  · intro d task ws clis base t now
    simp [register_tournament]
  · intro d tid u pre t post hd hpre ht
    constructor
    · simp only [update_tournament, hd,
        updateTournamentList_split pre t post tid u hpre ht]
    · rfl

/-- Witness for `tournament_status_write_behaviour`: updating the concrete
complete tournament with status `running` yields exactly that value. -/
theorem tournament_status_write_behaviour_witness :
    ((update_tournament exStoreC4 "t-c" { status := some "running" }).1).tournaments
        = [applyUpdates exCompleteT { status := some "running" }]
    ∧ (applyUpdates exCompleteT { status := some "running" }).status = "running" := by
  have h := tournament_status_write_behaviour.2.2 exStoreC4 "t-c"
    { status := some "running" } [] exCompleteT [] rfl (by simp) (by decide)
  exact ⟨h.1, h.2⟩

/-- C8 counterexample — tournament ids are not globally unique and carry no
random suffix: two tournaments registered within the same clock second
(`int(time.time())` equal) receive the identical id
`tournament-<epoch seconds>`. -/
theorem register_tournament_same_second_collision :
    ((register_tournament emptyCoord "task-a" [] ["claude"] "HEAD" 5 "T0").2
      = (register_tournament
          (register_tournament emptyCoord "task-a" [] ["claude"] "HEAD" 5 "T0").1
          "task-b" [] ["gemini"] "HEAD" 5 "T1").2)
    ∧ (register_tournament emptyCoord "task-a" [] ["claude"] "HEAD" 5 "T0").2
        = "tournament-5" := by
  refine ⟨rfl, rfl⟩

/-- C8 amended — the tournament id produced by registration is exactly
`"tournament-" ++ <decimal epoch seconds>`: it is time-seeded with no
random suffix, depends on nothing but the clock second, and therefore any
two registrations within the same second receive the same id (ids can
differ only across distinct seconds). -/
theorem register_tournament_id_time_seeded (d d' : CoordData)
    (task task' : String) (ws ws' : List TWorkerReq)
    (clis clis' : List String) (base base' : String) (t : Nat)
    (now now' : String) :
    ((register_tournament d task ws clis base t now).2
        = "tournament-" ++ toString t)
    ∧ ((register_tournament d task ws clis base t now).2
        = (register_tournament d' task' ws' clis' base' t now').2) :=
  ⟨rfl, rfl⟩

/-- A running tournament with one not-yet-done worker. -/
def exT9 : TournamentInfo :=
  { id := "t-9", task := "task", started := "T0", status := "running",
    clis := ["claude"],
    workers := [{ worker_id := 1, cli := "claude", path := "/w1",
                  branch := "b1" }] }

/-- A store holding only `exT9`. -/
def exStore9 : CoordData := { tournaments := [exT9] }

/-- C9 counterexample — marking a tournament worker done is not idempotent
on the stored record: a repeated call for the same tournament and worker
overwrites `completed_at` (and `done_file`) with the later call's values,
so the record does not stay unchanged. -/
theorem mark_tournament_worker_done_restamps :
    ((get_tournament
        (mark_tournament_worker_done exStore9 "t-9" 1 "/w1/DONE.md" "T1").1
        "t-9").map
          (fun t => t.workers.map TournamentWorker.completed_at)
        = some [some "T1"])
    ∧ ((get_tournament
          (mark_tournament_worker_done
            (mark_tournament_worker_done exStore9 "t-9" 1 "/w1/DONE.md" "T1").1
            "t-9" 1 "/w1/DONE2.md" "T2").1
          "t-9").map
            (fun t => t.workers.map TournamentWorker.completed_at)
        = some [some "T2"])
    ∧ (mark_tournament_worker_done
          (mark_tournament_worker_done exStore9 "t-9" 1 "/w1/DONE.md" "T1").1
          "t-9" 1 "/w1/DONE2.md" "T2").1
        ≠ (mark_tournament_worker_done exStore9 "t-9" 1 "/w1/DONE.md" "T1").1 := by
  refine ⟨by decide, by decide, by decide⟩

lemma markWorkerList_split (pre : List TournamentWorker)
    (w : TournamentWorker) (post : List TournamentWorker) (wid : Nat)
    (df now : String)
    (hpre : ∀ x ∈ pre, x.worker_id ≠ wid) (hw : w.worker_id = wid) :
    markWorkerList (pre ++ w :: post) wid df now
      = some (pre ++ stampWorker w df now :: post) := by
  induction pre with
  | nil => simp [markWorkerList, hw]
  | cons x xs ih =>
    have hx : x.worker_id ≠ wid := hpre x (by simp)
    have := ih (fun y hy => hpre y (by simp [hy]))
    simp only [List.cons_append, markWorkerList, if_neg hx,
      List.append_eq, this]

/-- C9 amended — a successful `mark_tournament_worker_done` call stamps
the targeted worker verbatim on *every* call: it sets `done := true`,
`done_file` to this call's marker path and `completed_at` to this call's
clock reading, regardless of whether the worker was already done, and
changes nothing else in the store.  Hence `done` only ever moves
false → true (repeated calls are idempotent on the flag), but repeated
calls re-stamp `completed_at` and `done_file` instead of leaving the
record unchanged. -/
theorem mark_tournament_worker_done_stamps (d : CoordData) (tid : String)
    (wid : Nat) (df now : String) (pre : List TournamentInfo)
    (t : TournamentInfo) (post : List TournamentInfo)
    (preW : List TournamentWorker) (w : TournamentWorker)
    (postW : List TournamentWorker)
    (hd : d.tournaments = pre ++ t :: post)
    (hpre : ∀ x ∈ pre, x.id ≠ tid)
    (ht : t.id = tid)
    (hw : t.workers = preW ++ w :: postW)
    (hpreW : ∀ x ∈ preW, x.worker_id ≠ wid)
    (hwid : w.worker_id = wid) :
    (mark_tournament_worker_done d tid wid df now).1.tournaments
        = pre ++ withWorkers t (preW ++ stampWorker w df now :: postW) :: post
    ∧ (mark_tournament_worker_done d tid wid df now).2 = true := by
  have hmark : markWorkerList t.workers wid df now
      = some (preW ++ stampWorker w df now :: postW) := by
    rw [hw]
    exact markWorkerList_split preW w postW wid df now hpreW hwid
  have hlist : ∀ pre' : List TournamentInfo, (∀ x ∈ pre', x.id ≠ tid) →
      markTournamentList (pre' ++ t :: post) tid wid df now
        = (pre' ++ withWorkers t (preW ++ stampWorker w df now :: postW)
            :: post, true) := by
    intro pre'
    induction pre' with
    | nil =>
      intro _
      simp [markTournamentList, ht, hmark]
    | cons x xs ih =>
      intro hpre'
      have hx : x.id ≠ tid := hpre' x (by simp)
      have := ih (fun y hy => hpre' y (by simp [hy]))
      simp only [List.cons_append, markTournamentList, if_neg hx,
        List.append_eq, this]
  constructor
  · simp only [mark_tournament_worker_done, hd, hlist pre hpre]
  · simp only [mark_tournament_worker_done, hd, hlist pre hpre]

/-- `exT9`'s worker after the first marking call. -/
def exW9once : TournamentWorker :=
  stampWorker { worker_id := 1, cli := "claude", path := "/w1", branch := "b1" }
    "/w1/DONE.md" "T1"

/-- `exT9` after the first marking call. -/
def exT9once : TournamentInfo := withWorkers exT9 [exW9once]

/-- Witness for `mark_tournament_worker_done_stamps`: re-marking the
already-done worker of the concrete store re-stamps it with the second
call's values. -/
theorem mark_tournament_worker_done_stamps_witness :
    (mark_tournament_worker_done
        (mark_tournament_worker_done exStore9 "t-9" 1 "/w1/DONE.md" "T1").1
        "t-9" 1 "/w1/DONE2.md" "T2").1.tournaments
      = [withWorkers exT9once [stampWorker exW9once "/w1/DONE2.md" "T2"]] := by
  have h := mark_tournament_worker_done_stamps
    (mark_tournament_worker_done exStore9 "t-9" 1 "/w1/DONE.md" "T1").1
    "t-9" 1 "/w1/DONE2.md" "T2" [] exT9once [] [] exW9once []
    (by decide) (by simp) (by decide) (by decide) (by simp) (by decide)
  simpa using h.1

end Coordination

namespace Normalizer

/-- A normalized finding, as the dicts built by result_parser.py. -/
structure Finding where
  id : String
  source : String
  category : String
  severity : String
  file : Option String
  line : Option Nat
  description : String
  suggestion : String
deriving DecidableEq, Repr

/-- A regex word character (`\w`) over the lowercased ASCII text the
parsers operate on. -/
def isWordChar (c : Char) : Bool := c.isAlphanum || c = '_'

def splitWordsAux : List Char → List Char → List String
  | [], cur => if cur.isEmpty then [] else [String.mk cur.reverse]
  | c :: cs, cur =>
    if isWordChar c then splitWordsAux cs (c :: cur)
    else if cur.isEmpty then splitWordsAux cs []
    else String.mk cur.reverse :: splitWordsAux cs []

/-- `text.lower()` as a character list. -/
def lowerChars (s : String) : List Char := s.toList.map Char.toLower

/-- The maximal word-character runs of the lowercased text: a whole-word
regex alternation `\b(a|b|...)\b` of plain keywords matches the text iff
one of the keywords is among these words. -/
def splitWords (s : String) : List String := splitWordsAux (lowerChars s) []

/-- `s.strip()`: leading and trailing whitespace removed. -/
def pyStrip (s : String) : String :=
  String.mk
    (((s.toList.dropWhile Char.isWhitespace).reverse.dropWhile
        Char.isWhitespace).reverse)

/-- `s[:n]`: the first `n` characters. -/
def pyTake (s : String) (n : Nat) : String := String.mk (s.toList.take n)

/-- Whether `n+1` occurs in the lowercased text with word boundaries on
both sides (the one keyword of parse_category that is not a plain word). -/
def hasNPlusOne : Option Char → List Char → Bool
  | prev, 'n' :: '+' :: '1' :: rest =>
    let prevOk := match prev with | none => true | some c => !isWordChar c
    let nextOk := match rest with | [] => true | c :: _ => !isWordChar c
    if prevOk && nextOk then true else hasNPlusOne (some 'n') ('+' :: '1' :: rest)
  | _, c :: cs => hasNPlusOne (some c) cs
  | _, [] => false

/-- Embeds `parse_severity`: first case-insensitive whole-word match
against the ordered keyword groups, else `trivial`. -/
def parse_severity (text : String) : String :=
  let ws := splitWords text
  if ws.any (fun w => w == "critical" || w == "high" || w == "severe" || w == "urgent")
  then "critical"
  else if ws.any (fun w => w == "major" || w == "important" || w == "significant")
  then "major"
  else if ws.any (fun w => w == "minor" || w == "low" || w == "small")
  then "minor"
  else "trivial"

/-- Embeds `parse_category`: first case-insensitive whole-word match
against the keyword groups, else `best-practices`. -/
def parse_category (text : String) : String :=
  let ws := splitWords text
  if ws.any (fun w => w == "security" || w == "vulnerability" || w == "injection"
      || w == "xss" || w == "auth" || w == "csrf" || w == "owasp")
  then "security"
  else if ws.any (fun w => w == "performance" || w == "slow" || w == "optimize"
      || w == "memory" || w == "cpu" || w == "cache")
      || hasNPlusOne none (lowerChars text)
  then "performance"
  else if ws.any (fun w => w == "architecture" || w == "design" || w == "pattern"
      || w == "structure" || w == "coupling" || w == "cohesion")
  then "architecture"
  else if ws.any (fun w => w == "quality" || w == "readable" || w == "maintainable"
      || w == "clean" || w == "dry" || w == "duplicate")
  then "quality"
  else "best-practices"

/-- A structured input record (one JSON mapping), restricted to the keys
the Claude parser reads; `none` = key absent. -/
structure RawRecord where
  description : Option String := none
  category : Option String := none
  severity : Option String := none
  file : Option String := none
  line : Option Nat := none
  suggestion : Option String := none
  fix : Option String := none
deriving DecidableEq, Repr

/-- Python's `a or b` on strings: `b` when `a` is empty (falsy), else `a`. -/
def pyOr (a b : String) : String := if a = "" then b else a

/-- Embeds `_safe_get(item, key, "")` for a mapping: the stored value, or
`""` when the key is absent. -/
def safeGet (o : Option String) : String := o.getD ""

/-- The finding dict built for one structured record in
`parse_claude_output` (both the top-level-list branch and the
`findings`-key branch build the identical dict). -/
def normalize_claude_item (fid : String) (r : RawRecord) : Finding :=
  let desc := safeGet r.description
  { id := fid,
    source := "claude",
    category := pyOr (safeGet r.category) (parse_category desc),
    severity := pyOr (safeGet r.severity) (parse_severity desc),
    file := some (safeGet r.file),
    line := r.line,
    description := desc,
    suggestion := pyOr (safeGet r.suggestion) (safeGet r.fix) }

/-- The structured loop of `parse_claude_output`: non-mapping entries
(`none`) are skipped, each kept record gets a fresh id (`genId` applied to
the running count of findings built so far, abstracting `uuid.uuid4()`). -/
def parseStructuredAux (genId : Nat → String) (k : Nat) :
    List (Option RawRecord) → List Finding
  | [] => []
  | none :: rest => parseStructuredAux genId k rest
  | some r :: rest =>
    normalize_claude_item (genId k) r :: parseStructuredAux genId (k + 1) rest

def parseStructured (genId : Nat → String)
    (items : List (Option RawRecord)) : List Finding :=
  parseStructuredAux genId 0 items

/-- The decoded raw output handed to `parse_claude_output`: a JSON list, a
JSON mapping with a `findings` key, or free text already split into
sections by the markdown regex (`json.loads` and `re.split` are string
plumbing abstracted into this shape). -/
inductive ClaudeOutput where
  | jsonList (items : List (Option RawRecord))
  | jsonFindings (items : List (Option RawRecord))
  | text (sections : List String)

/-- The free-text loop of `parse_claude_output`: sections whose stripped
text is empty or shorter than 20 characters are discarded as noise; each
kept section yields a finding with keyword-derived severity/category.
`extractFL` abstracts the `extract_file_line` regexes. -/
def parseClaudeText (genId : Nat → String)
    (extractFL : String → Option String × Option Nat) (k : Nat) :
    List String → List Finding
  | [] => []
  | s :: rest =>
    if pyStrip s = "" || (pyStrip s).length < 20 then
      parseClaudeText genId extractFL k rest
    else
      { id := genId k, source := "claude", category := parse_category s,
        severity := parse_severity s, file := (extractFL s).1,
        line := (extractFL s).2, description := pyStrip (pyTake s 500),
        suggestion := "" } :: parseClaudeText genId extractFL (k + 1) rest

/-- Embeds `parse_claude_output` over the decoded output shape. -/
def parse_claude_output (genId : Nat → String)
    (extractFL : String → Option String × Option Nat) :
    ClaudeOutput → List Finding
  | .jsonList items => parseStructured genId items
  | .jsonFindings items => parseStructured genId items
  | .text sections => parseClaudeText genId extractFL 0 sections

/-- The closed severity enumeration of the spec. -/
def severityEnum : List String := ["critical", "major", "minor", "trivial"]

/-- The closed category enumeration of the spec. -/
def categoryEnum : List String :=
  ["security", "performance", "architecture", "quality", "best-practices"]

/-- The ranking list of aggregator.py's merged-severity maximum:
`["trivial", "minor", "major", "critical"].index(s)`. -/
def sevIndexList : List String := ["trivial", "minor", "major", "critical"]

/-- `sevIndexList.index(s)`, with Python's ValueError (value absent)
represented as `none`. -/
def sevIndex (s : String) : Option Nat :=
  if s = "trivial" then some 0
  else if s = "minor" then some 1
  else if s = "major" then some 2
  else if s = "critical" then some 3
  else none

/-- The merged-group severity of aggregator.py:
`max((f["severity"] for f in findings), key=lambda s: sevIndexList.index(s))`.
Python's `max` keeps the first element whose key is maximal and raises
(modelled as `none`) on an empty group or when any member's severity is
outside the ranking list. -/
def merged_severity (fs : List Finding) : Option String :=
  match fs with
  | [] => none
  | f :: rest =>
    if (f :: rest).all (fun g => (sevIndex g.severity).isSome) then
      some ((rest.foldl (fun best g =>
        if (sevIndex best.severity).getD 0 < (sevIndex g.severity).getD 0
        then g else best) f).severity)
    else none

end Normalizer

namespace Normalizer

/-- C6 — a structured record with explicit non-empty `severity` and
`category` keeps exactly those values in the normalized Finding (the
keyword derivation from the description is short-circuited by Python's
`or`), and every finding the structured loop produces is the
normalization of its input record. -/
theorem structured_explicit_fields_preserved (fid : String) (r : RawRecord)
    (c s : String)
    (hc : r.category = some c) (hc0 : c ≠ "")
    (hs : r.severity = some s) (hs0 : s ≠ "") :
    (normalize_claude_item fid r).category = c
    ∧ (normalize_claude_item fid r).severity = s
    ∧ (∀ (genId : Nat → String) (items : List (Option RawRecord)),
        List.Forall₂
          (fun (r' : RawRecord) (f : Finding) =>
            ∃ fid', f = normalize_claude_item fid' r')
          (items.filterMap (fun x => x))
          (parseStructured genId items)) := by
  refine ⟨?_, ?_, ?_⟩
  · simp [normalize_claude_item, safeGet, hc, pyOr, hc0]
  · simp [normalize_claude_item, safeGet, hs, pyOr, hs0]
  · intro genId items
    suffices h : ∀ (k : Nat) (its : List (Option RawRecord)),
        List.Forall₂
          (fun (r' : RawRecord) (f : Finding) =>
            ∃ fid', f = normalize_claude_item fid' r')
          (its.filterMap (fun x => x))
          (parseStructuredAux genId k its) by
      exact h 0 items
    intro k its
    induction its generalizing k with
    | nil => simp [parseStructuredAux]
    | cons x rest ih =>
      cases x with
      | none => simpa [parseStructuredAux] using ih k
      | some r' =>
        simp only [parseStructuredAux, List.filterMap_cons]
        exact List.Forall₂.cons ⟨genId k, rfl⟩ (ih (k + 1))

/-- Witness for `structured_explicit_fields_preserved`: explicit
`severity = "major"`, `category = "security"` survive even though the
description's keywords would have derived `critical` / `performance`. -/
theorem structured_explicit_fields_preserved_witness :
    ((normalize_claude_item "id-0"
        { description := some "critical slow query",
          category := some "security", severity := some "major" }).category
      = "security")
    ∧ ((normalize_claude_item "id-0"
        { description := some "critical slow query",
          category := some "security", severity := some "major" }).severity
      = "major")
    ∧ parse_severity "critical slow query" = "critical"
    ∧ parse_category "critical slow query" = "performance" := by
  have h := structured_explicit_fields_preserved "id-0"
    { description := some "critical slow query",
      category := some "security", severity := some "major" }
    "security" "major" rfl (by decide) rfl (by decide)
  exact ⟨h.1, h.2.1, by decide, by decide⟩

/-- The id source used by concrete parser evaluations. -/
def exGenId : Nat → String := fun n => "id-" ++ toString n

/-- The file/line extractor used by concrete parser evaluations. -/
def exExtractFL : String → Option String × Option Nat := fun _ => (none, none)

/-- A structured record whose explicit severity/category lie outside the
closed enumerations. -/
def exBadRecord : RawRecord :=
  { description := some "a problem somewhere in the code",
    severity := some "huge", category := some "stuff" }

/-- C7 counterexample — normalization does not keep severity/category
inside the closed enumerations: a structured record with explicit
`severity = "huge"`, `category = "stuff"` is passed through verbatim, and
the aggregator's merged-severity maximum (which ranks by position in the
severity list) is undefined (raises ValueError, modelled `none`) on a
group containing that finding. -/
theorem structured_severity_escapes_enum :
    ((parse_claude_output exGenId exExtractFL
        (.jsonList [some exBadRecord])).map Finding.severity = ["huge"])
    ∧ "huge" ∉ severityEnum
    ∧ ((parse_claude_output exGenId exExtractFL
        (.jsonList [some exBadRecord])).map Finding.category = ["stuff"])
    ∧ "stuff" ∉ categoryEnum
    ∧ merged_severity
        (parse_claude_output exGenId exExtractFL
          (.jsonList [some exBadRecord])) = none := by
  refine ⟨by decide, by decide, by decide, by decide, by decide⟩

lemma parse_severity_mem (t : String) : parse_severity t ∈ severityEnum := by
  simp only [parse_severity, severityEnum]
  split
  · simp
  · split
    · simp
    · split <;> simp

lemma parse_category_mem (t : String) : parse_category t ∈ categoryEnum := by
  simp only [parse_category, categoryEnum]
  split
  · simp
  · split
    · simp
    · split
      · simp
      · split <;> simp

lemma sevIndex_isSome_iff (s : String) :
    (sevIndex s).isSome = true ↔ s ∈ severityEnum := by
  unfold sevIndex severityEnum
  split_ifs with h1 h2 h3 h4 <;> simp_all

/-- C7 amended — the free-text path always derives severity and category
inside the closed enumerations, and so does the structured path whenever
the record's explicit field is absent or empty; but an explicit non-empty
severity/category is passed through verbatim even when it lies outside the
enumeration, and the aggregator's merged-group severity maximum is defined
exactly for the nonempty groups all of whose members' severities lie in
the severity enumeration. -/
theorem findings_enum_membership :
    (∀ t : String, parse_severity t ∈ severityEnum)
    ∧ (∀ t : String, parse_category t ∈ categoryEnum)
    ∧ (∀ (genId : Nat → String)
          (extractFL : String → Option String × Option Nat)
          (sections : List String),
        ∀ f ∈ parse_claude_output genId extractFL (.text sections),
          f.severity ∈ severityEnum ∧ f.category ∈ categoryEnum)
    ∧ (∀ (fid : String) (r : RawRecord),
        (safeGet r.severity = "" →
          (normalize_claude_item fid r).severity ∈ severityEnum)
        ∧ (safeGet r.category = "" →
          (normalize_claude_item fid r).category ∈ categoryEnum)
        ∧ (safeGet r.severity ≠ "" →
          (normalize_claude_item fid r).severity = safeGet r.severity)
        ∧ (safeGet r.category ≠ "" →
          (normalize_claude_item fid r).category = safeGet r.category))
    ∧ (∀ fs : List Finding,
        (merged_severity fs).isSome = true
          ↔ fs ≠ [] ∧ ∀ f ∈ fs, f.severity ∈ severityEnum) := by
  refine ⟨parse_severity_mem, parse_category_mem, ?_, ?_, ?_⟩
  · intro genId extractFL sections f hf
    suffices h : ∀ (k : Nat) (secs : List String),
        ∀ f ∈ parseClaudeText genId extractFL k secs,
          f.severity ∈ severityEnum ∧ f.category ∈ categoryEnum by
      exact h 0 sections f hf
    intro k secs
    induction secs generalizing k with
    | nil => simp [parseClaudeText]
    | cons sec rest ih =>
      intro g hg
      unfold parseClaudeText at hg
      by_cases hskip : pyStrip sec = "" || (pyStrip sec).length < 20
      · rw [if_pos hskip] at hg
        exact ih k g hg
      · rw [if_neg hskip] at hg
        rcases List.mem_cons.mp hg with hg | hg
        · subst hg
          exact ⟨parse_severity_mem sec, parse_category_mem sec⟩
        · exact ih (k + 1) g hg
  · intro fid r
    refine ⟨?_, ?_, ?_, ?_⟩
    · intro h
      simp only [normalize_claude_item, pyOr, h, if_pos rfl]
      exact parse_severity_mem _
    · intro h
      simp only [normalize_claude_item, pyOr, h, if_pos rfl]
      exact parse_category_mem _
    · intro h
      simp only [normalize_claude_item, pyOr, if_neg h]
    · intro h
      simp only [normalize_claude_item, pyOr, if_neg h]
  · intro fs
    cases fs with
    | nil => simp [merged_severity]
    | cons f rest =>
      simp only [merged_severity]
      by_cases hall : (f :: rest).all (fun g => (sevIndex g.severity).isSome)
      · rw [if_pos hall]
        simp only [Option.isSome_some, true_iff]
        refine ⟨by simp, ?_⟩
        intro g hg
        rw [← sevIndex_isSome_iff]
        exact List.all_eq_true.mp hall g hg
      · rw [if_neg hall]
        simp only [Option.isSome_none, Bool.false_eq_true, false_iff]
        intro hcon
        apply hall
        rw [List.all_eq_true]
        intro g hg
        rw [sevIndex_isSome_iff]
        exact hcon.2 g hg

/-- Witness for `findings_enum_membership`: concrete evaluations of the
enum-membership and pass-through facts. -/
theorem findings_enum_membership_witness :
    parse_severity "nothing notable" ∈ severityEnum
    ∧ ((normalize_claude_item "id-1"
        { description := some "minor style nit" }).severity ∈ severityEnum)
    ∧ ((normalize_claude_item "id-1" exBadRecord).severity = "huge")
    ∧ (merged_severity [] ).isSome = false := by
  have h := findings_enum_membership
  refine ⟨h.1 "nothing notable", ?_, ?_, ?_⟩
  · exact (h.2.2.2.1 "id-1" { description := some "minor style nit" }).1 rfl
  · exact (h.2.2.2.1 "id-1" exBadRecord).2.2.1 (by decide)
  · have := h.2.2.2.2 ([] : List Finding)
    simp only [ne_eq, not_true_eq_false, false_and, iff_false] at this
    simpa using this

end Normalizer

namespace Aggregator

open Normalizer (Finding)

/-- One finding of `find_matches`'s working copies, identified by its
stable `(cli, index)` cache key (`f_copy["_cache_key"] = (cli, idx)`);
key equality models Python dict equality between the distinct copies. -/
structure Item where
  key : String × Nat
  f : Finding
deriving DecidableEq, Repr

/-- One matched group: the `findings` list (in append order) and the
`sources` set. -/
structure Group where
  findings : List Item
  srcs : Finset String
deriving DecidableEq

/-- The cache keys of a group's members; `f in group["findings"]` is key
equality, since within one run the `(cli, idx)` key determines the
finding dict. -/
def Group.keys (g : Group) : List (String × Nat) := g.findings.map Item.key

/-- The mutable state of `find_matches`'s loops: which findings carry
`_matched = True`, and the `matched_groups` list. -/
structure MatchState where
  matched : List (String × Nat)
  groups : List Group
deriving DecidableEq

/-- `if f not in group["findings"]: append f; sources.add(f["source"])`. -/
def extendWith (g : Group) (i : Item) : Group :=
  if i.key ∈ g.keys then g
  else ⟨g.findings ++ [i], insert i.f.source g.srcs⟩

/-- The group-find-or-extend loop: the first group containing `f1` or
`f2` absorbs whichever of the two it lacks (checking `f2` against the
group after `f1` was appended, as the Python code does); reports whether
a group was found. -/
def addPairToGroups (i1 i2 : Item) : List Group → List Group × Bool
  | [] => ([], false)
  | g :: rest =>
    if i1.key ∈ g.keys ∨ i2.key ∈ g.keys then
      (extendWith (extendWith g i1) i2 :: rest, true)
    else
      let r := addPairToGroups i1 i2 rest
      (g :: r.1, r.2)

/-- The body of a successful score-threshold test: find or create the
group, then mark both findings matched. -/
def attach (st : MatchState) (i1 i2 : Item) : MatchState :=
  let r := addPairToGroups i1 i2 st.groups
  let groups' := if r.2 then r.1
    else st.groups ++ [⟨[i1, i2], {i1.f.source, i2.f.source}⟩]
  ⟨st.matched ++ [i1.key, i2.key], groups'⟩

/-- The innermost loop body over `f2`: skip matched `f2`, test the match
predicate (the `similarity_score ≥ threshold` comparison, abstracted as
`m`), attach on success.  `f1`'s matched flag is *not* re-checked here:
the Python loop tests it only on entry to the `f2` loop. -/
def processF2 (m : Finding → Finding → Bool) (i1 : Item) (st : MatchState)
    (i2 : Item) : MatchState :=
  if i2.key ∈ st.matched then st
  else if m i1.f i2.f then attach st i1 i2 else st

/-- The loop over `f1`: skip `f1` if already matched, else run the inner
`f2` loop over all of `cli2`'s findings. -/
def processF1 (m : Finding → Finding → Bool) (ys : List Item)
    (st : MatchState) (i1 : Item) : MatchState :=
  if i1.key ∈ st.matched then st
  else ys.foldl (processF2 m i1) st

/-- One `(cli1, cli2)` pair of the outer loops. -/
def processCliPair (m : Finding → Finding → Bool) (st : MatchState)
    (p : List Item × List Item) : MatchState :=
  p.1.foldl (processF1 m p.2) st

/-- All ordered pairs `(clis[i], clis[j])`, `i < j`, in loop order. -/
def pairsOf {α : Type} : List α → List (α × α)
  | [] => []
  | x :: rest => rest.map (fun y => (x, y)) ++ pairsOf rest

/-- One CLI's findings with their `(cli, idx)` cache keys. -/
def indexCli (cli : String) (fs : List Finding) : List Item :=
  fs.enum.map (fun p => ⟨(cli, p.1), p.2⟩)

/-- Embeds `find_matches`: the findings dict is an association list in
insertion order; the score/threshold test is the abstract predicate `m`. -/
def find_matches (m : Finding → Finding → Bool)
    (findings : List (String × List Finding)) : MatchState :=
  let indexed := findings.map (fun p => indexCli p.1 p.2)
  (pairsOf indexed).foldl (processCliPair m) ⟨[], []⟩

/-- The merged finding built for one group in `aggregate_findings`
(lines 198-210): head member's id/category/file/line, the severity
maximum, the sources set, and per-source description/suggestion dicts. -/
structure Merged where
  id : String
  category : String
  severity : String
  file : Option String
  line : Option Nat
  sources : Finset String
  descriptions : List (String × String)
  suggestions : List (String × String)
deriving DecidableEq

/-- `d[k] = v` on an insertion-ordered dict: overwrite in place when the
key exists, append otherwise. -/
def pyDictUpdate (d : List (String × String)) (k v : String) :
    List (String × String) :=
  if d.any (fun p => p.1 = k) then
    d.map (fun p => if p.1 = k then (k, v) else p)
  else d ++ [(k, v)]

/-- A Python dict comprehension over the given `(key, value)` pairs:
first-occurrence key order, last-assignment values. -/
def pyDictOf (ps : List (String × String)) : List (String × String) :=
  ps.foldl (fun d p => pyDictUpdate d p.1 p.2) []

/-- Builds the merged dict of lines 198-210.  The severity field is
`max((f["severity"] for f in findings), key=sevIndexList.index)`, which
raises ValueError when any member's severity is outside the ranking list
(modelled `none`, as is the unreachable empty-group IndexError); every
other field is a pure projection. -/
def mergeGroup (g : Group) : Option Merged :=
  match g.findings with
  | [] => none
  | f0 :: _ =>
    match Normalizer.merged_severity (g.findings.map Item.f) with
    | none => none
    | some sev =>
      some { id := f0.f.id, category := f0.f.category, severity := sev,
             file := f0.f.file, line := f0.f.line, sources := g.srcs,
             descriptions := pyDictOf (g.findings.map
               (fun i => (i.f.source, i.f.description))),
             suggestions := pyDictOf ((g.findings.filter
               (fun i => i.f.suggestion ≠ "")).map
               (fun i => (i.f.source, i.f.suggestion))) }

/-- The classification loop of `aggregate_findings` (lines 194-215): for
each group in order, the merged finding is built *first* — its severity
maximum raises ValueError on an out-of-enum severity, aborting the whole
aggregation (`none`), so nothing at all is classified — and only then the
tier test runs: `consensus` when `len(sources) >= cli_count` and
`cli_count >= 3`, else `majority` when `len(sources) >= 2`, else the
merged finding is dropped; order preserved. -/
def classifyGroups (cliCount : Nat) : List Group → Option (List Merged × List Merged)
  | [] => some ([], [])
  | g :: rest =>
    match mergeGroup g with
    | none => none
    | some merged =>
      match classifyGroups cliCount rest with
      | none => none
      | some r =>
        if cliCount ≤ g.srcs.card ∧ 3 ≤ cliCount then some (merged :: r.1, r.2)
        else if 2 ≤ g.srcs.card then some (r.1, merged :: r.2)
        else some r

/-- The unique bucket of one CLI in `aggregate_findings`: its findings
that never matched, in insertion order. -/
def uniqueFor (st : MatchState) (cli : String) (fs : List Finding) :
    List Finding :=
  (fs.enum.filter (fun p => (cli, p.1) ∉ st.matched)).map Prod.snd

end Aggregator

namespace Aggregator

open Normalizer (Finding)

/-- The sources any group may draw from: the keys of the findings dict. -/
def srcsOf (findings : List (String × List Finding)) : Finset String :=
  (findings.map Prod.fst).toFinset

/-- Invariant carried by `matched_groups`: every group has at least two
sources, all drawn from `allowed`. -/
def GroupsOk (allowed : Finset String) (gs : List Group) : Prop :=
  ∀ g ∈ gs, 2 ≤ g.srcs.card ∧ g.srcs ⊆ allowed

lemma extendWith_ok (allowed : Finset String) (g : Group) (i : Item)
    (hi : i.f.source ∈ allowed) (h2 : 2 ≤ g.srcs.card)
    (hsub : g.srcs ⊆ allowed) :
    2 ≤ (extendWith g i).srcs.card ∧ (extendWith g i).srcs ⊆ allowed := by
  unfold extendWith
  by_cases h : i.key ∈ g.keys
  · rw [if_pos h]; exact ⟨h2, hsub⟩
  · rw [if_neg h]
    constructor
    · exact le_trans h2 (Finset.card_le_card (Finset.subset_insert _ _))
    · exact Finset.insert_subset hi hsub

lemma addPairToGroups_ok (allowed : Finset String) (i1 i2 : Item)
    (h1 : i1.f.source ∈ allowed) (h2 : i2.f.source ∈ allowed)
    (gs : List Group) (hg : GroupsOk allowed gs) :
    GroupsOk allowed (addPairToGroups i1 i2 gs).1 := by
  induction gs with
  | nil => simpa [addPairToGroups] using hg
  | cons g rest ih =>
    have hgrest : GroupsOk allowed rest := fun x hx => hg x (by simp [hx])
    have hgg := hg g (by simp)
    by_cases hin : i1.key ∈ g.keys ∨ i2.key ∈ g.keys
    · simp only [addPairToGroups, if_pos hin]
      intro x hx
      rcases List.mem_cons.mp hx with hx | hx
      · subst hx
        have e1 := extendWith_ok allowed g i1 h1 hgg.1 hgg.2
        exact extendWith_ok allowed (extendWith g i1) i2 h2 e1.1 e1.2
      · exact hgrest x hx
    · simp only [addPairToGroups, if_neg hin]
      intro x hx
      rcases List.mem_cons.mp hx with hx | hx
      · subst hx; exact hgg
      · exact ih hgrest x hx

lemma attach_ok (allowed : Finset String) (st : MatchState) (i1 i2 : Item)
    (h1 : i1.f.source ∈ allowed) (h2 : i2.f.source ∈ allowed)
    (hne : i1.f.source ≠ i2.f.source)
    (hg : GroupsOk allowed st.groups) :
    GroupsOk allowed (attach st i1 i2).groups := by
  unfold attach
  by_cases hr : (addPairToGroups i1 i2 st.groups).2
  · simpa only [hr, if_pos] using
      addPairToGroups_ok allowed i1 i2 h1 h2 st.groups hg
  · simp only [hr, if_neg, Bool.false_eq_true, not_false_eq_true]
    intro x hx
    rcases List.mem_append.mp hx with hx | hx
    · exact hg x hx
    · have hxe : x = ⟨[i1, i2], {i1.f.source, i2.f.source}⟩ := by
        simpa using hx
      subst hxe
      constructor
      · show 2 ≤ ({i1.f.source, i2.f.source} : Finset String).card
        rw [Finset.card_insert_of_not_mem (by simpa using hne),
          Finset.card_singleton]
      · intro s hs
        rcases Finset.mem_insert.mp hs with hs | hs
        · subst hs; exact h1
        · rw [Finset.mem_singleton.mp hs]; exact h2

lemma processF2_ok (allowed : Finset String) (m : Finding → Finding → Bool)
    (i1 i2 : Item) (st : MatchState)
    (h1 : i1.f.source ∈ allowed) (h2 : i2.f.source ∈ allowed)
    (hne : i1.f.source ≠ i2.f.source)
    (hg : GroupsOk allowed st.groups) :
    GroupsOk allowed (processF2 m i1 st i2).groups := by
  unfold processF2
  by_cases hm : i2.key ∈ st.matched
  · rw [if_pos hm]; exact hg
  · rw [if_neg hm]
    by_cases hmatch : m i1.f i2.f
    · rw [if_pos hmatch]
      exact attach_ok allowed st i1 i2 h1 h2 hne hg
    · rw [if_neg hmatch]; exact hg

lemma foldl_preserve {α σ : Type _} (P : σ → Prop) (f : σ → α → σ)
    (l : List α) (hstep : ∀ s a, a ∈ l → P s → P (f s a)) :
    ∀ s, P s → P (l.foldl f s) := by
  induction l with
  | nil => intro s hs; simpa using hs
  | cons x xs ih =>
    intro s hs
    exact ih (fun s a ha hps => hstep s a (by simp [ha]) hps) _
      (hstep s x (by simp) hs)

lemma processF1_ok (allowed : Finset String) (m : Finding → Finding → Bool)
    (i1 : Item) (ys : List Item) (st : MatchState)
    (h1 : i1.f.source ∈ allowed)
    (h2 : ∀ i2 ∈ ys, i2.f.source ∈ allowed ∧ i1.f.source ≠ i2.f.source)
    (hg : GroupsOk allowed st.groups) :
    GroupsOk allowed (processF1 m ys st i1).groups := by
  unfold processF1
  by_cases hm : i1.key ∈ st.matched
  · rw [if_pos hm]; exact hg
  · rw [if_neg hm]
    exact foldl_preserve (fun s => GroupsOk allowed s.groups)
      (processF2 m i1) ys
      (fun s i2 hi2 hps =>
        processF2_ok allowed m i1 i2 s h1 (h2 i2 hi2).1 (h2 i2 hi2).2 hps)
      st hg

/-- The conditions one `(cli1, cli2)` pair of item lists satisfies inside
`aggregate_findings`: sources drawn from the dict keys, distinct between
the two sides. -/
def PairOk (allowed : Finset String) (p : List Item × List Item) : Prop :=
  (∀ i ∈ p.1, i.f.source ∈ allowed) ∧ (∀ i ∈ p.2, i.f.source ∈ allowed)
  ∧ ∀ i1 ∈ p.1, ∀ i2 ∈ p.2, i1.f.source ≠ i2.f.source

lemma processCliPair_ok (allowed : Finset String)
    (m : Finding → Finding → Bool) (p : List Item × List Item)
    (hp : PairOk allowed p) (st : MatchState)
    (hg : GroupsOk allowed st.groups) :
    GroupsOk allowed (processCliPair m st p).groups := by
  unfold processCliPair
  exact foldl_preserve (fun s => GroupsOk allowed s.groups)
    (processF1 m p.2) p.1
    (fun s i1 hi1 hps =>
      processF1_ok allowed m i1 p.2 s (hp.1 i1 hi1)
        (fun i2 hi2 => ⟨hp.2.1 i2 hi2, hp.2.2 i1 hi1 i2 hi2⟩) hps)
    st hg

lemma pairsOf_mem_split {α : Type} (l : List α) (p : α × α)
    (hp : p ∈ pairsOf l) :
    ∃ l₁ l₂ l₃, l = l₁ ++ p.1 :: l₂ ++ p.2 :: l₃ := by
  induction l with
  | nil => simp [pairsOf] at hp
  | cons x rest ih =>
    simp only [pairsOf, List.mem_append, List.mem_map] at hp
    rcases hp with ⟨y, hy, hxy⟩ | hp
    · rcases List.append_of_mem hy with ⟨s, t, hst⟩
      refine ⟨[], s, t, ?_⟩
      rw [← hxy]
      simp [hst]
    · rcases ih hp with ⟨l₁, l₂, l₃, h⟩
      exact ⟨x :: l₁, l₂, l₃, by simp [h]⟩

end Aggregator

namespace Aggregator

open Normalizer (Finding)

lemma indexCli_mem_f (cli : String) (fs : List Finding) (i : Item)
    (hi : i ∈ indexCli cli fs) : i.f ∈ fs := by
  unfold indexCli at hi
  rcases List.mem_map.mp hi with ⟨q, hq, rfl⟩
  obtain ⟨idx, a⟩ := q
  rw [List.enum_eq_zip_range] at hq
  exact (List.of_mem_zip hq).2

lemma pairs_ok (findings : List (String × List Finding))
    (hnd : (findings.map Prod.fst).Nodup)
    (hsrc : ∀ p ∈ findings, ∀ f ∈ p.2, f.source = p.1) :
    ∀ p ∈ pairsOf (findings.map (fun q => indexCli q.1 q.2)),
      PairOk (srcsOf findings) p := by
  intro p hp
  obtain ⟨l₁, l₂, l₃, hsplit⟩ :=
    pairsOf_mem_split (findings.map (fun q => indexCli q.1 q.2)) p hp
  have hsplit' : findings.map (fun q => indexCli q.1 q.2)
      = (l₁ ++ p.1 :: l₂) ++ p.2 :: l₃ := by
    rw [hsplit]
  rcases List.map_eq_append_iff.mp hsplit' with ⟨mA, mB, hfe, hmA, hmB⟩
  rcases List.map_eq_append_iff.mp hmA with ⟨m₁, m₂, hAe, hm₁, hm₂⟩
  rcases List.map_eq_cons_iff.mp hm₂ with ⟨q1, m₂', hm₂e, hq1, hm₂'⟩
  rcases List.map_eq_cons_iff.mp hmB with ⟨q2, m₅, hBe, hq2, hm₅⟩
  have hfind : findings = (m₁ ++ q1 :: m₂') ++ q2 :: m₅ := by
    rw [hfe, hAe, hm₂e, hBe]
  have hq1mem : q1 ∈ findings := by rw [hfind]; simp
  have hq2mem : q2 ∈ findings := by rw [hfind]; simp
  have hne : q1.1 ≠ q2.1 := by
    have h1 : (findings.map Prod.fst).Nodup := hnd
    rw [hfind, List.map_append] at h1
    have hdisj := (List.nodup_append.mp h1).2.2
    have hq1in : q1.1 ∈ (m₁ ++ q1 :: m₂').map Prod.fst := by simp
    have hq2in : q2.1 ∈ ((q2 :: m₅).map Prod.fst) := by simp
    intro he
    exact hdisj hq1in (he ▸ hq2in)
  have hsrc1 : ∀ i ∈ indexCli q1.1 q1.2, i.f.source = q1.1 := by
    intro i hi
    exact hsrc q1 hq1mem i.f (indexCli_mem_f q1.1 q1.2 i hi)
  have hsrc2 : ∀ i ∈ indexCli q2.1 q2.2, i.f.source = q2.1 := by
    intro i hi
    exact hsrc q2 hq2mem i.f (indexCli_mem_f q2.1 q2.2 i hi)
  have hin1 : q1.1 ∈ srcsOf findings := by
    unfold srcsOf
    rw [List.mem_toFinset]
    exact List.mem_map.mpr ⟨q1, hq1mem, rfl⟩
  have hin2 : q2.1 ∈ srcsOf findings := by
    unfold srcsOf
    rw [List.mem_toFinset]
    exact List.mem_map.mpr ⟨q2, hq2mem, rfl⟩
  refine ⟨?_, ?_, ?_⟩
  · intro i hi
    rw [← hq1] at hi
    rw [hsrc1 i hi]
    exact hin1
  · intro i hi
    rw [← hq2] at hi
    rw [hsrc2 i hi]
    exact hin2
  · intro i1 hi1 i2 hi2
    rw [← hq1] at hi1
    rw [← hq2] at hi2
    rw [hsrc1 i1 hi1, hsrc2 i2 hi2]
    exact hne

lemma find_matches_groups_ok (m : Finding → Finding → Bool)
    (findings : List (String × List Finding))
    (hnd : (findings.map Prod.fst).Nodup)
    (hsrc : ∀ p ∈ findings, ∀ f ∈ p.2, f.source = p.1) :
    GroupsOk (srcsOf findings) (find_matches m findings).groups := by
  unfold find_matches
  exact foldl_preserve (fun s => GroupsOk (srcsOf findings) s.groups)
    (processCliPair m) _
    (fun s p hp hps =>
      processCliPair_ok (srcsOf findings) m p
        (pairs_ok findings hnd hsrc p hp) s hps)
    ⟨[], []⟩ (fun g hg => by simp at hg)

lemma classifyGroups_eq_some (n : Nat) (gs : List Group)
    (hg : ∀ g ∈ gs, 2 ≤ g.srcs.card ∧ g.srcs.card ≤ n)
    (hdef : ∀ g ∈ gs, (mergeGroup g).isSome = true) :
    classifyGroups n gs
      = some ((gs.filter (fun g => g.srcs.card = n ∧ 3 ≤ n)).filterMap
                mergeGroup,
              (gs.filter (fun g => 2 ≤ g.srcs.card
                ∧ ¬(g.srcs.card = n ∧ 3 ≤ n))).filterMap mergeGroup) := by
  induction gs with
  | nil => simp [classifyGroups]
  | cons g rest ih =>
    have hgg := hg g (by simp)
    obtain ⟨mg, hmg⟩ := Option.isSome_iff_exists.mp (hdef g (by simp))
    have hrest := ih (fun x hx => hg x (by simp [hx]))
      (fun x hx => hdef x (by simp [hx]))
    simp only [classifyGroups, hmg, hrest]
    by_cases hc : n ≤ g.srcs.card ∧ 3 ≤ n
    · have heq : g.srcs.card = n := le_antisymm hgg.2 hc.1
      rw [if_pos hc]
      have hcc : g.srcs.card = n ∧ 3 ≤ n := ⟨heq, hc.2⟩
      simp [List.filter_cons, hcc, List.filterMap_cons, hmg]
    · rw [if_neg hc]
      have hnc : ¬(g.srcs.card = n ∧ 3 ≤ n) := by
        intro hcc
        exact hc ⟨le_of_eq hcc.1.symm, hcc.2⟩
      rw [if_pos hgg.1]
      have hor : ¬g.srcs.card = n ∨ n < 3 := by
        by_cases hcard : g.srcs.card = n
        · right
          have h3 : ¬3 ≤ n := fun h3 => hnc ⟨hcard, h3⟩
          omega
        · left; exact hcard
      simp [List.filter_cons, hnc, hgg.1, hor, List.filterMap_cons, hmg]

lemma enum_snd_mem {α : Type} (l : List α) (q : Nat × α)
    (hq : q ∈ l.enum) : q.2 ∈ l := by
  obtain ⟨i, a⟩ := q
  rw [List.enum_eq_zip_range] at hq
  exact (List.of_mem_zip hq).2

end Aggregator

namespace Aggregator

open Normalizer (Finding)

/-- A concrete finding of CLI `a`. -/
def exFindingA : Finding :=
  { id := "fa", source := "a", category := "security", severity := "major",
    file := some "src/x.ts", line := some 10,
    description := "injection risk", suggestion := "" }

/-- A concrete finding of CLI `b`. -/
def exFindingB : Finding :=
  { id := "fb", source := "b", category := "security", severity := "major",
    file := some "src/x.ts", line := some 10,
    description := "injection risk", suggestion := "" }

/-- A two-CLI findings dict where both CLIs raised the same issue. -/
def exFindings2 : List (String × List Finding) :=
  [("a", [exFindingA]), ("b", [exFindingB])]

/-- A matcher that accepts every pair (total agreement). -/
def mAll : Finding → Finding → Bool := fun _ _ => true

/-- `exFindingA` with a severity outside the ranking list, as the parser
passes through verbatim (see `structured_severity_escapes_enum`). -/
def exBadA : Finding :=
  { id := "fa", source := "a", category := "stuff", severity := "huge",
    file := some "src/x.ts", line := some 10,
    description := "a problem somewhere in the code", suggestion := "" }

/-- `exBadA`'s counterpart from CLI `b`. -/
def exBadB : Finding :=
  { id := "fb", source := "b", category := "stuff", severity := "huge",
    file := some "src/x.ts", line := some 10,
    description := "a problem somewhere in the code", suggestion := "" }

/-- A two-CLI findings dict where both CLIs raised the same issue but
with an out-of-enum severity. -/
def exFindingsBad : List (String × List Finding) :=
  [("a", [exBadA]), ("b", [exBadB])]

/-- C1 counterexample — the claimed classification does not happen on
every run: with two agents agreeing on one finding whose severity
(`"huge"`, reachable through the parser per the C7 counterexample) lies
outside the aggregator's ranking list, `find_matches` forms one group
spanning both agents — which the claim says is classified majority — but
`aggregate_findings` computes the merged-severity maximum before the tier
test, `["trivial","minor","major","critical"].index("huge")` raises
ValueError, and the whole aggregation aborts: nothing (no group and no
unique finding) is classified. -/
theorem aggregation_classification_aborts :
    ((find_matches mAll exFindingsBad).groups.map Group.srcs
        = [{"a", "b"}])
    ∧ exBadA.severity ∉ Normalizer.sevIndexList
    ∧ classifyGroups exFindingsBad.length
        (find_matches mAll exFindingsBad).groups = none := by
  refine ⟨by decide, by decide, by decide⟩

/-- C1 amended — classification of the aggregation tiers, for any
score/threshold predicate `m` and any findings dict with distinct keys
whose findings carry their own CLI as `source` (as `parse_cli_output`
guarantees), *provided* every matched group's merged finding is defined —
i.e. every member severity lies in the ranking list; otherwise the
severity maximum raises and the aggregation aborts with nothing
classified (see `aggregation_classification_aborts`).  Then: every group
spans 2..cli_count sources; a group's merged record is classified
consensus iff its sources set size equals the number of participating
CLIs and that number is ≥ 3, and majority iff it spans ≥ 2 sources but
not all of them (or fewer than 3 total CLIs); a 2-CLI run never yields a
consensus group; and every finding that never matched lands in the
unique bucket of its originating CLI. -/
theorem aggregation_tier_classification (m : Finding → Finding → Bool)
    (findings : List (String × List Finding))
    (hnd : (findings.map Prod.fst).Nodup)
    (hsrc : ∀ p ∈ findings, ∀ f ∈ p.2, f.source = p.1)
    (hdef : ∀ g ∈ (find_matches m findings).groups,
      (mergeGroup g).isSome = true) :
    (classifyGroups findings.length (find_matches m findings).groups
        = some (((find_matches m findings).groups.filter
              (fun g => g.srcs.card = findings.length
                ∧ 3 ≤ findings.length)).filterMap mergeGroup,
            ((find_matches m findings).groups.filter
              (fun g => 2 ≤ g.srcs.card
                ∧ ¬(g.srcs.card = findings.length
                  ∧ 3 ≤ findings.length))).filterMap mergeGroup))
    ∧ (∀ g ∈ (find_matches m findings).groups,
        2 ≤ g.srcs.card ∧ g.srcs.card ≤ findings.length)
    ∧ (findings.length = 2 →
        classifyGroups findings.length (find_matches m findings).groups
          = some ([], ((find_matches m findings).groups).filterMap
              mergeGroup))
    ∧ (∀ p ∈ findings, ∀ q ∈ p.2.enum,
        (p.1, q.1) ∉ (find_matches m findings).matched →
          q.2 ∈ uniqueFor (find_matches m findings) p.1 p.2
          ∧ q.2.source = p.1) := by
  have hok := find_matches_groups_ok m findings hnd hsrc
  have hbounds : ∀ g ∈ (find_matches m findings).groups,
      2 ≤ g.srcs.card ∧ g.srcs.card ≤ findings.length := by
    intro g hg
    obtain ⟨h2, hsub⟩ := hok g hg
    refine ⟨h2, ?_⟩
    calc g.srcs.card ≤ (srcsOf findings).card := Finset.card_le_card hsub
      _ ≤ (findings.map Prod.fst).length := List.toFinset_card_le _
      _ = findings.length := by simp
  have hclass := classifyGroups_eq_some findings.length
    (find_matches m findings).groups hbounds hdef
  refine ⟨hclass, hbounds, ?_, ?_⟩
  · intro h2
    have hf1 : (find_matches m findings).groups.filter
        (fun g => g.srcs.card = findings.length ∧ 3 ≤ findings.length)
        = [] := by
      apply List.filter_eq_nil_iff.mpr
      intro g hg
      rw [h2]
      simp
    have hf2 : (find_matches m findings).groups.filter
        (fun g => 2 ≤ g.srcs.card
          ∧ ¬(g.srcs.card = findings.length ∧ 3 ≤ findings.length))
        = (find_matches m findings).groups := by
      apply List.filter_eq_self.mpr
      intro g hg
      have hb := hbounds g hg
      rw [h2] at hb
      simp only [h2, decide_eq_true_eq]
      exact ⟨hb.1, fun hcc => absurd hcc.2 (by omega)⟩
    rw [hclass, hf1, hf2]
    simp
  · intro p hp q hq hnm
    constructor
    · unfold uniqueFor
      apply List.mem_map.mpr
      refine ⟨q, ?_, rfl⟩
      apply List.mem_filter.mpr
      exact ⟨hq, by simpa using hnm⟩
    · exact hsrc p hp q.2 (enum_snd_mem p.2 q hq)

/-- Witness for `aggregation_tier_classification`: in the concrete 2-CLI
total-agreement run with in-enum severities, classification succeeds,
consensus is empty, the lone merged group lands in majority, and every
group spans both sources. -/
theorem aggregation_tier_classification_witness :
    (classifyGroups exFindings2.length
        (find_matches mAll exFindings2).groups
      = some ([], ((find_matches mAll exFindings2).groups).filterMap
          mergeGroup))
    ∧ ∀ g ∈ (find_matches mAll exFindings2).groups, 2 ≤ g.srcs.card := by
  have h := aggregation_tier_classification mAll exFindings2
    (by decide) (by decide) (by decide)
  exact ⟨h.2.2.1 rfl, fun g hg => (h.2.1 g hg).1⟩

end Aggregator

namespace Runner

/-- The dict returned by `run_parallel_reviews`, restricted to the fields
with logic: `results` is the per-CLI `(cli, status)` list,
`missing_clis` is absent (`none`) on the up-front failure return (that
dict has no such key), and path-building fields are omitted. -/
structure RunResult where
  success : Bool
  review_id : String
  error : Option String
  results : List (String × String)
  missing_clis : Option (List String)
deriving DecidableEq, Repr

/-- `", ".join(l)`. -/
def joinComma (l : List String) : String := String.intercalate ", " l

/-- Embeds `run_parallel_reviews`: `installed` abstracts
`check_cli_installed` (the `which`-style availability probe), `exec`
abstracts `run_single_review`'s terminal status for one CLI
(`complete` on exit 0, else `failed`/`timeout`/`error`).  The Python code
collects results in `as_completed` (completion) order; this embedding
uses submission order — the returned fields proved about below are
order-independent.  File/metadata writes and the prompt hash are I/O
omitted here. -/
def run_parallel_reviews (installed : String → Bool)
    (exec : String → String) (reviewId : String) (clis : List String) :
    RunResult :=
  let available := clis.filter (fun c => installed c)
  let missing := clis.filter (fun c => !installed c)
  if available.isEmpty then
    { success := false, review_id := reviewId,
      error := some ("No CLIs available. Missing: " ++ joinComma missing),
      results := [], missing_clis := none }
  else
    let results := available.map (fun c => (c, exec c))
    let successful := results.filter (fun r => r.2 == "complete")
    if successful.isEmpty then
      { success := false, review_id := reviewId,
        error := some ("All CLIs failed: "
          ++ joinComma (results.map Prod.fst)
          ++ ". Check individual results for details."),
        results := results, missing_clis := some missing }
    else
      { success := true, review_id := reviewId, error := none,
        results := results, missing_clis := some missing }

lemma map_fst_pair {β : Type} (f : String → β) (l : List String) :
    (l.map (fun c => (c, f c))).map Prod.fst = l := by
  induction l with
  | nil => rfl
  | cons x xs ih => simp only [List.map_cons, ih]

/-- C5 — runner semantics: the executed CLIs are exactly the requested
ones passing the availability probe (probe failures are excluded and
reported missing); the run fails up front exactly when that subset is
empty (naming the missing CLIs); after execution `success = true` iff at
least one executed CLI reached `complete`; and otherwise the run fails
with an aggregate error naming every executed CLI. -/
theorem run_parallel_reviews_semantics (installed : String → Bool)
    (exec : String → String) (rid : String) (clis : List String) :
    ((run_parallel_reviews installed exec rid clis).results.map Prod.fst
        = clis.filter (fun c => installed c))
    ∧ (clis.filter (fun c => installed c) ≠ [] →
        (run_parallel_reviews installed exec rid clis).missing_clis
          = some (clis.filter (fun c => !installed c)))
    ∧ (clis.filter (fun c => installed c) = [] →
        (run_parallel_reviews installed exec rid clis).success = false
        ∧ (run_parallel_reviews installed exec rid clis).results = []
        ∧ (run_parallel_reviews installed exec rid clis).error
            = some ("No CLIs available. Missing: "
              ++ joinComma (clis.filter (fun c => !installed c))))
    ∧ ((run_parallel_reviews installed exec rid clis).success = true
        ↔ ∃ c ∈ clis.filter (fun c => installed c), exec c = "complete")
    ∧ (clis.filter (fun c => installed c) ≠ [] →
        (run_parallel_reviews installed exec rid clis).success = false →
        (run_parallel_reviews installed exec rid clis).error
          = some ("All CLIs failed: "
            ++ joinComma (clis.filter (fun c => installed c))
            ++ ". Check individual results for details.")) := by
  unfold run_parallel_reviews
  by_cases hav : (clis.filter (fun c => installed c)).isEmpty
  · have hav' : clis.filter (fun c => installed c) = [] :=
      List.isEmpty_iff.mp hav
    rw [if_pos hav]
    refine ⟨by simp [hav'], ?_, ?_, ?_, ?_⟩
    · intro hne; exact absurd hav' hne
    · intro _; exact ⟨rfl, rfl, rfl⟩
    · simp [hav']
    · intro hne; exact absurd hav' hne
  · have hav' : clis.filter (fun c => installed c) ≠ [] :=
      fun h => hav (by simp [h])
    rw [if_neg hav]
    by_cases hsucc : ((clis.filter (fun c => installed c)).map
        (fun c => (c, exec c))).filter (fun r => r.2 == "complete")
        |>.isEmpty
    · rw [if_pos hsucc]
      have hnone : ∀ c ∈ clis.filter (fun c => installed c),
          ¬exec c = "complete" := by
        intro c hc hcomp
        have := List.isEmpty_iff.mp hsucc
        rw [List.filter_eq_nil_iff] at this
        exact this (c, exec c) (List.mem_map.mpr ⟨c, hc, rfl⟩)
          (by simp [hcomp])
      refine ⟨by rw [map_fst_pair], fun _ => rfl,
        fun h => absurd h hav', ?_, ?_⟩
      · constructor
        · intro h; simp at h
        · rintro ⟨c, hc, hcomp⟩
          exact absurd hcomp (hnone c hc)
      · intro _ _
        rw [map_fst_pair]
    · rw [if_neg hsucc]
      have hsome : ∃ c ∈ clis.filter (fun c => installed c),
          exec c = "complete" := by
        have hne : ((clis.filter (fun c => installed c)).map
            (fun c => (c, exec c))).filter (fun r => r.2 == "complete")
            ≠ [] := fun h => hsucc (by simp [h])
        obtain ⟨x, hx⟩ := List.exists_mem_of_ne_nil _ hne
        have hx' := List.mem_filter.mp hx
        rcases List.mem_map.mp hx'.1 with ⟨c, hc, hcx⟩
        refine ⟨c, hc, ?_⟩
        have := hx'.2
        rw [← hcx] at this
        simpa using this
      refine ⟨by rw [map_fst_pair], fun _ => rfl, fun h => absurd h hav',
        ⟨fun _ => hsome, fun _ => rfl⟩, ?_⟩
      intro _ hfalse
      simp at hfalse

/-- The availability probe of the concrete witness run: everything but
`gemini` is installed. -/
def exInstalled : String → Bool := fun c => c != "gemini"

/-- The execution outcome of the concrete witness run: `claude` completes,
the others fail. -/
def exExec : String → String :=
  fun c => if c = "claude" then "complete" else "failed"

/-- Witness for `run_parallel_reviews_semantics`: with `gemini` missing
and `claude` completing, the run executes `claude` and `codex`, reports
`gemini` missing, and succeeds. -/
theorem run_parallel_reviews_semantics_witness :
    ((run_parallel_reviews exInstalled exExec "review-1"
        ["claude", "gemini", "codex"]).results.map Prod.fst
      = ["claude", "codex"])
    ∧ ((run_parallel_reviews exInstalled exExec "review-1"
        ["claude", "gemini", "codex"]).missing_clis = some ["gemini"])
    ∧ ((run_parallel_reviews exInstalled exExec "review-1"
        ["claude", "gemini", "codex"]).success = true) := by
  have h := run_parallel_reviews_semantics exInstalled exExec "review-1"
    ["claude", "gemini", "codex"]
  refine ⟨?_, ?_, ?_⟩
  · rw [h.1]; decide
  · rw [h.2.1 (by decide)]; decide
  · exact h.2.2.2.1.mpr ⟨"claude", by decide, by decide⟩

end Runner
